import Mathlib

/-!
Verification of the StegApp steganographic codec.

Shallow embedding of `src/services/steganography.ts`, `src/services/pdfStego.ts`
and the AES-GCM encryption service (`encryption.ts`, bundled with `pdfStego.ts`).

Modelling conventions:
* A JavaScript string is a list of UTF-16 code units, modelled as `List Nat`
  (each element is the result of `charCodeAt`, hence `< 2^16` for real strings).
* A `Uint8ClampedArray` / `Uint8Array` of carrier bytes is a `List Nat`
  (each element `< 2^8` for real carriers).
* The '0'/'1' strings the source manipulates are modelled as `List Bool`
  (most significant bit first, as produced by `Number.prototype.toString(2)`).
* Each distinct `throw new Error(...)` site of the source is one constructor
  of `StegoError`.
* Platform primitives that are external to the repository are treated as
  follows: the base64 built-ins `btoa`/`atob` are modelled concretely from
  their platform specification, while `JSON.parse`, `crypto.subtle` (AES-GCM)
  and `encryptMessage`/`decryptMessage`'s cryptographic core are abstracted as
  explicit function parameters, since their behaviour is not code of this
  repository.
-/

namespace StegApp

/-- Error kinds, one per distinct `throw new Error(...)` site of the source:
`capacityExceeded` (encodeImage / encodeAudio), `noHeaderFound` (decodeImage),
`noHiddenData` (decodeAudio "No hidden data detected" and decodePdf
"No hidden message found in PDF Subject metadata."), `malformedEncoding`
(decodePdf "Corrupted hidden data encoding."), `integrity`
("INTEGRITY CHECK FAILED..." in decryptMessage), `decryptionFailed`
("Decryption failed. Invalid password or corrupted data."), and
`invalidCharacter` (the DOMException thrown by `btoa` on non-Latin-1 input). -/
inductive StegoError where
  | capacityExceeded
  | noHeaderFound
  | noHiddenData
  | malformedEncoding
  | integrity
  | decryptionFailed
  | invalidCharacter
deriving DecidableEq, Repr

/-- Value of a big-endian bit string, as computed by `parseInt(s, 2)` on a
string of '0'/'1' characters. -/
def bitsToNat (bs : List Bool) : Nat :=
  bs.foldl (fun a b => 2 * a + (if b then 1 else 0)) 0

/-- Helper for `natToBinGo`: repeated division by two, accumulating digits
least-significant first so the result is big-endian.  The first argument is
fuel bounding the recursion depth (any fuel `≥ n` gives the same result),
used so that the definition is structurally recursive and hence computable
by the kernel. -/
def natToBinAcc : Nat → Nat → List Bool → List Bool
  | _, 0, acc => acc
  | 0, _ + 1, acc => acc
  | fuel + 1, n + 1, acc =>
    natToBinAcc fuel ((n + 1) / 2) (((n + 1) % 2 == 1) :: acc)

/-- Big-endian binary digits of `n` without leading zeros; empty for `0`.
Helper for `natToBin`. -/
def natToBinGo (n : Nat) : List Bool := natToBinAcc n n []

/-- Model of `n.toString(2)` for a natural number `n`: big-endian binary
digits, `"0"` (one digit) for zero. -/
def natToBin (n : Nat) : List Bool :=
  if n = 0 then [false] else natToBinGo n

/-- Model of one step of `stringToBinary` (steganography.ts):
`'0'.repeat(16 - binary.length) + binary`, the 16-bit zero-padded big-endian
encoding of one character code. -/
def char16 (c : Nat) : List Bool :=
  List.replicate (16 - (natToBin c).length) false ++ natToBin c

/-- Model of `stringToBinary` (steganography.ts): each character becomes 16
bits, concatenated. -/
def stringToBinary (msg : List Nat) : List Bool :=
  (msg.map char16).flatten

/-- Model of `binaryMessage.length.toString(2).padStart(32, '0')`: the 32-bit
zero-padded big-endian header.  Like `padStart`, it leaves the string alone
when it is already longer than 32 characters. -/
def lengthBin (n : Nat) : List Bool :=
  List.replicate (32 - (natToBin n).length) false ++ natToBin n

/-- Helper for `binaryToString` with explicit fuel (any fuel `≥ bits.length`
gives the same result), so that the definition is structurally recursive and
hence computable by the kernel. -/
def binaryToStringFuel : Nat → List Bool → List Nat
  | _, [] => []
  | 0, _ :: _ => []
  | fuel + 1, b :: bs =>
    bitsToNat ((b :: bs).take 16) :: binaryToStringFuel fuel ((b :: bs).drop 16)

/-- Model of `binaryToString` (steganography.ts): split into 16-bit groups
(the final group may be shorter, as with `substr`), `parseInt` each group and
take the resulting character code. -/
def binaryToString (bits : List Bool) : List Nat :=
  binaryToStringFuel bits.length bits

/-- Model of `(x & ~1) | bit` on a carrier byte: clear the least-significant
bit and set it to `b`. -/
def setLSB (d : Nat) (b : Bool) : Nat :=
  2 * (d / 2) + (if b then 1 else 0)

/-- Model of `x ^ 1` on a carrier byte: flip the least-significant bit. -/
def xorLSB (d : Nat) : Nat :=
  if d % 2 = 0 then d + 1 else d - 1

/-! ## Image adapter (LSB over RGBA channel bytes, alpha excluded)

The byte at index `i` is the alpha channel when `(i + 1) % 4 = 0`, exactly the
test of the source loops. -/

/-- Model of the write loop of `encodeImage`: walk the channel bytes from
index `i`, skip every alpha byte, and overwrite the least-significant bit of
each other byte with the next bit of `bits`; stop when the bits or the bytes
run out, leaving the remaining bytes unchanged. -/
def writeLSBAux : Nat → List Nat → List Bool → List Nat
  | _, [], _ => []
  | _, ds, [] => ds
  | i, d :: ds, b :: bs =>
    if (i + 1) % 4 = 0 then d :: writeLSBAux (i + 1) ds (b :: bs)
    else setLSB d b :: writeLSBAux (i + 1) ds bs

/-- Model of a read loop of `decodeImage` starting at byte index `i`: collect
the least-significant bits of up to `need` non-alpha bytes; return the
collected bits, the unconsumed bytes and the final byte index, so that the
second read loop of the source can continue where the first one stopped. -/
def readBits : Nat → List Nat → Nat → List Bool × List Nat × Nat
  | i, [], _ => ([], [], i)
  | i, d :: ds, 0 => ([], d :: ds, i)
  | i, d :: ds, need + 1 =>
    if (i + 1) % 4 = 0 then readBits (i + 1) ds (need + 1)
    else
      let r := readBits (i + 1) ds need
      ((d % 2 == 1) :: r.1, r.2.1, r.2.2)

/-- The sequence of least-significant bits of the non-alpha bytes starting at
byte index `i` (the image adapter's slot sequence). -/
def imageSlotsFrom : Nat → List Nat → List Bool
  | _, [] => []
  | i, d :: ds =>
    if (i + 1) % 4 = 0 then imageSlotsFrom (i + 1) ds
    else (d % 2 == 1) :: imageSlotsFrom (i + 1) ds

/-- The image adapter's slot sequence, starting at byte index 0. -/
def imageSlots (data : List Nat) : List Bool :=
  imageSlotsFrom 0 data

/-- The frame built by `encodeImage`/`encodeAudio` for a (possibly encrypted)
message: `lengthBin + binaryMessage`. -/
def frameBits (fm : List Nat) : List Bool :=
  lengthBin (stringToBinary fm).length ++ stringToBinary fm

/-- Model of the body of `encodeImage` after the final message has been
produced: capacity check `fullBinary.length > data.length * 3 / 4` (an exact
rational comparison in the source, hence `* 4 > * 3` here), then the LSB
write loop.  The first component is the error, if any; the second is the
carrier byte buffer after the call, which is untouched when the capacity
check throws (the `throw` precedes the write loop in the source). -/
def encodeImageRun (data : List Nat) (fm : List Nat) : Option StegoError × List Nat :=
  if (frameBits fm).length * 4 > data.length * 3 then
    (some .capacityExceeded, data)
  else
    (none, writeLSBAux 0 data (frameBits fm))

/-- Model of `decodeImage` (steganography.ts) without the final decryption
step: read 32 header bits from the non-alpha LSBs, `parseInt` them
(`parseInt("", 2)` is `NaN`, on which both guards are false and the body loop
reads nothing — the `lengthBin = []` branch), fail with `noHeaderFound` when
`msgLength <= 0 || msgLength > data.length * 8`, then read up to `msgLength`
further bits from where the header read stopped and decode them. -/
def decodeImageCore (data : List Nat) : Except StegoError (List Nat) :=
  let r1 := readBits 0 data 32
  if r1.1 = [] then .ok (binaryToString [])
  else
    let msgLength := bitsToNat r1.1
    if msgLength = 0 ∨ msgLength > data.length * 8 then .error .noHeaderFound
    else .ok (binaryToString (readBits r1.2.2 r1.2.1 msgLength).1)

/-- Model of `encodeImage` including the optional encryption step; the
platform-cryptography function `encryptMessage message password` is abstracted
as the parameter carried inside `pw`. -/
def encodeImage (data : List Nat) (message : List Nat)
    (pw : Option (List Nat → List Nat)) : Except StegoError (List Nat) :=
  let fm := match pw with | some enc => enc message | none => message
  match encodeImageRun data fm with
  | (some e, _) => .error e
  | (none, out) => .ok out

/-- Model of `decodeImage` including the optional decryption step; the
platform-cryptography function `decryptMessage decoded password` is abstracted
as the parameter carried inside `pw`. -/
def decodeImage (data : List Nat)
    (pw : Option (List Nat → Except StegoError (List Nat))) :
    Except StegoError (List Nat) :=
  match decodeImageCore data with
  | .ok m => match pw with | none => .ok m | some dec => dec m
  | .error e => .error e

/-- Model of the loop of `corruptImage`: walk the bytes, skip alpha bytes,
count non-alpha bytes in `found`, and flip the least-significant bit of the
first non-alpha byte reached with `found > 42` (the 44th slot), leaving
everything after it unchanged. -/
def corruptImageAux : Nat → Nat → List Nat → List Nat
  | _, _, [] => []
  | i, found, d :: ds =>
    if (i + 1) % 4 = 0 then d :: corruptImageAux (i + 1) found ds
    else if 42 < found then xorLSB d :: ds
    else d :: corruptImageAux (i + 1) (found + 1) ds

/-- Model of `corruptImage` (steganography.ts). -/
def corruptImage (data : List Nat) : List Nat :=
  corruptImageAux 0 0 data

/-! ## Audio adapter (LSB over the bytes of the WAV `data` chunk)

The WAV chunk scan of the source (locating the `data` chunk) is container
plumbing; the adapter is modelled at the level of the located `data` chunk
bytes (`samples`), which is where all claim-relevant logic lives. -/

/-- Model of the write loop of `encodeAudio`: overwrite the least-significant
bit of the first `bits.length` sample bytes (no alpha exclusion). -/
def writeAudio : List Nat → List Bool → List Nat
  | ds, [] => ds
  | [], _ => []
  | d :: ds, b :: bs => setLSB d b :: writeAudio ds bs

/-- Model of the body of `encodeAudio` on the located `data` chunk: capacity
check `fullBinary.length > samples.length`, then the LSB write loop.  As with
`encodeImageRun`, the second component is the byte buffer after the call. -/
def encodeAudioRun (samples : List Nat) (fm : List Nat) : Option StegoError × List Nat :=
  if (frameBits fm).length > samples.length then
    (some .capacityExceeded, samples)
  else
    (none, writeAudio samples (frameBits fm))

/-- Model of `decodeAudio` on the located `data` chunk, without the final
decryption step.  The source indexes `samples[i]` without a bounds check;
reading past the end of a `Uint8Array` yields `undefined`, and
`undefined & 1` is `0`, modelled by `getD _ 0`. -/
def decodeAudioCore (samples : List Nat) : Except StegoError (List Nat) :=
  let lengthBin := (List.range 32).map (fun i => samples.getD i 0 % 2 == 1)
  let msgLength := bitsToNat lengthBin
  if msgLength = 0 ∨ msgLength > samples.length then .error .noHiddenData
  else
    .ok (binaryToString
      ((List.range msgLength).map (fun i => samples.getD (32 + i) 0 % 2 == 1)))

/-- Model of `encodeAudio` including the optional encryption step. -/
def encodeAudio (samples : List Nat) (message : List Nat)
    (pw : Option (List Nat → List Nat)) : Except StegoError (List Nat) :=
  let fm := match pw with | some enc => enc message | none => message
  match encodeAudioRun samples fm with
  | (some e, _) => .error e
  | (none, out) => .ok out

/-- Model of `decodeAudio` including the optional decryption step. -/
def decodeAudio (samples : List Nat)
    (pw : Option (List Nat → Except StegoError (List Nat))) :
    Except StegoError (List Nat) :=
  match decodeAudioCore samples with
  | .ok m => match pw with | none => .ok m | some dec => dec m
  | .error e => .error e

/-- Model of `corruptAudio` on the located `data` chunk:
`if (samples.length > 50) samples[40] ^= 1`. -/
def corruptAudio (samples : List Nat) : List Nat :=
  if 50 < samples.length then samples.set 40 (xorLSB (samples.getD 40 0))
  else samples

/-! ## Base64 (`btoa` / `atob` platform built-ins)

These are browser built-ins, not repository code, but their behaviour is
fully specified (HTML forgiving-base64), so they are modelled concretely:
`btoa` fails exactly when some code unit exceeds `U+00FF`, `atob` strips
ASCII whitespace, strips up to two trailing `'='` when the length is a
multiple of 4, fails on length `≡ 1 (mod 4)` or on characters outside the
base64 alphabet, and decodes 6-bit groups discarding leftover bits. -/

/-- The base64 alphabet `A-Z a-z 0-9 + /` as character codes. -/
def b64chars : List Nat :=
  [65, 66, 67, 68, 69, 70, 71, 72, 73, 74, 75, 76, 77, 78, 79, 80, 81, 82,
   83, 84, 85, 86, 87, 88, 89, 90,
   97, 98, 99, 100, 101, 102, 103, 104, 105, 106, 107, 108, 109, 110, 111,
   112, 113, 114, 115, 116, 117, 118, 119, 120, 121, 122,
   48, 49, 50, 51, 52, 53, 54, 55, 56, 57, 43, 47]

/-- Character code of the base64 digit with value `v`. -/
def b64charAt (v : Nat) : Nat := b64chars.getD v 0

/-- Value of a base64 character code, `none` if it is not in the alphabet. -/
def b64index (c : Nat) : Option Nat :=
  let i := b64chars.indexOf c
  if i < 64 then some i else none

/-- Base64 encoding of a byte list (output of `btoa` on Latin-1 input):
3 bytes become 4 characters; 1 or 2 trailing bytes are padded with `'='`
(code 61). -/
def b64encode : List Nat → List Nat
  | [] => []
  | [a] => [b64charAt (a / 4), b64charAt (a % 4 * 16), 61, 61]
  | [a, b] => [b64charAt (a / 4), b64charAt (a % 4 * 16 + b / 16),
               b64charAt (b % 16 * 4), 61]
  | a :: b :: c :: rest =>
    b64charAt (a / 4) :: b64charAt (a % 4 * 16 + b / 16) ::
    b64charAt (b % 16 * 4 + c / 64) :: b64charAt (c % 64) :: b64encode rest

/-- The non-padding characters of `b64encode` (helper for proofs). -/
def b64body : List Nat → List Nat
  | [] => []
  | [a] => [b64charAt (a / 4), b64charAt (a % 4 * 16)]
  | [a, b] => [b64charAt (a / 4), b64charAt (a % 4 * 16 + b / 16),
               b64charAt (b % 16 * 4)]
  | a :: b :: c :: rest =>
    b64charAt (a / 4) :: b64charAt (a % 4 * 16 + b / 16) ::
    b64charAt (b % 16 * 4 + c / 64) :: b64charAt (c % 64) :: b64body rest

/-- ASCII whitespace stripped by forgiving-base64. -/
def wsChars : List Nat := [9, 10, 12, 13, 32]

/-- Remove one leading `'='` (working on the reversed string). -/
def stripTrailingEq (r : List Nat) : List Nat :=
  if r.head? = some 61 then r.tail else r

/-- Strip up to two trailing `'='` characters. -/
def stripPad (t : List Nat) : List Nat :=
  (stripTrailingEq (stripTrailingEq t.reverse)).reverse

/-- Map every character to its base64 value, failing on the first character
outside the alphabet. -/
def b64sextets : List Nat → Option (List Nat)
  | [] => some []
  | c :: cs =>
    match b64index c, b64sextets cs with
    | some v, some vs => some (v :: vs)
    | _, _ => none

/-- Reassemble bytes from 6-bit values: 4 values give 3 bytes; a final group
of 2 or 3 values gives 1 or 2 bytes, discarding leftover bits. -/
def atobDecode : List Nat → List Nat
  | a :: b :: c :: d :: rest =>
    (a * 4 + b / 16) :: (b % 16 * 16 + c / 4) :: (c % 4 * 64 + d) :: atobDecode rest
  | [a, b] => [a * 4 + b / 16]
  | [a, b, c] => [a * 4 + b / 16, b % 16 * 16 + c / 4]
  | _ => []

/-- Model of the `atob` built-in (forgiving-base64 decode); `none` models the
`InvalidCharacterError` caught by `decodePdf`. -/
def atob (s : List Nat) : Option (List Nat) :=
  let t0 := s.filter (fun c => !(wsChars.contains c))
  let t := if t0.length % 4 = 0 then stripPad t0 else t0
  if t.length % 4 = 1 then none
  else
    match b64sextets t with
    | none => none
    | some vs => some (atobDecode vs)

/-- Model of the `btoa` built-in: fails (throws `InvalidCharacterError`)
exactly when some code unit of its argument exceeds `U+00FF`. -/
def btoa (s : List Nat) : Option (List Nat) :=
  if s.all (fun c => c < 256) then some (b64encode s) else none

/-! ## PDF adapter (Subject metadata field) -/

/-- Character codes of the marker `"STEGAPP_HIDDEN:"`. -/
def pdfMarker : List Nat :=
  [83, 84, 69, 71, 65, 80, 80, 95, 72, 73, 68, 68, 69, 78, 58]

/-- Model of `encodePdf`: the new Subject field is the marker followed by the
base64 encoding of the (possibly encrypted) message; a `btoa` failure
propagates to the caller.  The original Subject is ignored. -/
def encodePdf (message : List Nat) (pw : Option (List Nat → List Nat)) :
    Except StegoError (Option (List Nat)) :=
  let fm := match pw with | some enc => enc message | none => message
  match btoa fm with
  | none => .error .invalidCharacter
  | some b => .ok (some (pdfMarker ++ b))

/-- Model of `decodePdf` on the Subject field (`none` = field absent):
`noHiddenData` when the field is absent or does not start with the marker,
`malformedEncoding` when the remainder is not valid base64, otherwise the
decoded text, decrypted when a password is supplied. -/
def decodePdf (subject : Option (List Nat))
    (pw : Option (List Nat → Except StegoError (List Nat))) :
    Except StegoError (List Nat) :=
  match subject with
  | none => .error .noHiddenData
  | some s =>
    if s.take 15 = pdfMarker then
      match atob (s.drop 15) with
      | none => .error .malformedEncoding
      | some decoded =>
        match pw with | none => .ok decoded | some dec => dec decoded
    else .error .noHiddenData

/-- Model of `corruptPdf` on the Subject field: when the field carries hidden
data whose base64 text is longer than 10 characters, replace the character at
its midpoint (`'A'` becomes `'B'`, anything else becomes `'A'`); otherwise
leave the field unchanged. -/
def corruptPdf (subject : Option (List Nat)) : Option (List Nat) :=
  match subject with
  | none => subject
  | some s =>
    if s.take 15 = pdfMarker then
      let raw := s.drop 15
      if 10 < raw.length then
        let idx := raw.length / 2
        let c := raw.getD idx 0
        some (pdfMarker ++
          (raw.take idx ++ [if c = 65 then 66 else 65] ++ raw.drop (idx + 1)))
      else subject
    else subject

/-! ## Encryption service (`encryption.ts`)

`decryptMessage` is modelled at the level of its try/catch structure.  The
platform pieces are abstracted: the outcome of `JSON.parse` plus the bundle
field accesses is a `ParseOutcome`, and AES-GCM decryption is a parameter
`aes` returning `none` exactly when `crypto.subtle.decrypt` rejects with an
`OperationError` (authentication-tag mismatch). -/

/-- Name of a thrown JavaScript error: ordinary `Error`s versus the
`OperationError` DOMException raised by Web Crypto on tag-verification
failure. -/
inductive JsErrorName where
  | error
  | operationError
deriving DecidableEq, Repr

/-- Outcome of `JSON.parse` on the payload: `fail` when the text is not JSON,
otherwise the three bundle fields, where `none` models an absent or falsy
field (the `!bundle.s || !bundle.iv || !bundle.d` check). -/
inductive ParseOutcome where
  | fail
  | parsed (s iv d : Option (List Nat))
deriving DecidableEq

/-- The inner `try` block of `decryptMessage`: parse failure throws
"Invalid payload format." (an ordinary `Error`), a missing field throws
"Corrupted encryption header." (an ordinary `Error`), and AES-GCM tag failure
rejects with an `OperationError`. -/
def decryptInner (p : ParseOutcome)
    (aes : List Nat → List Nat → List Nat → Option (List Nat)) :
    Except JsErrorName (List Nat) :=
  match p with
  | .fail => .error .error
  | .parsed s iv d =>
    match s, iv, d with
    | some s, some iv, some d =>
      match aes s iv d with
      | some plain => .ok plain
      | none => .error .operationError
    | _, _, _ => .error .error

/-- Model of `decryptMessage` (encryption.ts): the outer `catch` re-throws an
`OperationError` as the Integrity error and every other error — including the
two malformed-envelope errors thrown inside the same `try` — as the generic
"Decryption failed. Invalid password or corrupted data." error. -/
def decryptMessage (p : ParseOutcome)
    (aes : List Nat → List Nat → List Nat → Option (List Nat)) :
    Except StegoError (List Nat) :=
  match decryptInner p aes with
  | .ok m => .ok m
  | .error n =>
    if n = .operationError then .error .integrity else .error .decryptionFailed

/-! ## Carrier dispatch (the `encode`/`decode` entry points) -/

/-- A carrier: image channel bytes, audio `data`-chunk bytes, or a PDF
Subject metadata field. -/
inductive Carrier where
  | image (data : List Nat)
  | audio (samples : List Nat)
  | pdf (subject : Option (List Nat))
deriving DecidableEq

/-- The encode pipeline dispatched on the carrier kind. -/
def stegoEncode (c : Carrier) (message : List Nat)
    (pw : Option (List Nat → List Nat)) : Except StegoError Carrier :=
  match c with
  | .image data => (encodeImage data message pw).map .image
  | .audio samples => (encodeAudio samples message pw).map .audio
  | .pdf _ => (encodePdf message pw).map .pdf

/-- The decode pipeline dispatched on the carrier kind. -/
def stegoDecode (c : Carrier)
    (pw : Option (List Nat → Except StegoError (List Nat))) :
    Except StegoError (List Nat) :=
  match c with
  | .image data => decodeImage data pw
  | .audio samples => decodeAudio samples pw
  | .pdf subject => decodePdf subject pw

/-! ## Helper lemmas: bit strings and the framer -/

theorem bitsToNat_foldl (bs : List Bool) (a : Nat) :
    bs.foldl (fun x b => 2 * x + (if b then 1 else 0)) a =
      a * 2 ^ bs.length + bitsToNat bs := by
  induction bs generalizing a with
  | nil => simp [bitsToNat]
  | cons b bs ih =>
    simp only [List.foldl_cons, bitsToNat, List.length_cons]
    rw [ih, ih (2 * 0 + if b then 1 else 0)]
    ring

theorem bitsToNat_append (xs ys : List Bool) :
    bitsToNat (xs ++ ys) = bitsToNat xs * 2 ^ ys.length + bitsToNat ys := by
  simp only [bitsToNat, List.foldl_append]
  rw [bitsToNat_foldl]
  rfl

theorem bitsToNat_replicate_false (m : Nat) (xs : List Bool) :
    bitsToNat (List.replicate m false ++ xs) = bitsToNat xs := by
  rw [bitsToNat_append]
  have : bitsToNat (List.replicate m false) = 0 := by
    induction m with
    | zero => rfl
    | succ k ih =>
      rw [List.replicate_succ]
      simpa [bitsToNat] using ih
  simp [this]

theorem natToBinAcc_acc : ∀ (fuel n : Nat) (acc : List Bool),
    natToBinAcc fuel n acc = natToBinAcc fuel n [] ++ acc
  | fuel, 0, acc => by cases fuel <;> simp [natToBinAcc]
  | 0, n + 1, acc => by simp [natToBinAcc]
  | fuel + 1, n + 1, acc => by
    rw [natToBinAcc, natToBinAcc]
    rw [natToBinAcc_acc fuel _ (((n + 1) % 2 == 1) :: acc),
      natToBinAcc_acc fuel _ [((n + 1) % 2 == 1)]]
    simp

theorem natToBinAcc_congr (n : Nat) : ∀ (fuel1 fuel2 : Nat) (acc : List Bool),
    n ≤ fuel1 → n ≤ fuel2 →
    natToBinAcc fuel1 n acc = natToBinAcc fuel2 n acc := by
  induction n using Nat.strong_induction_on with
  | _ n ih =>
    intro fuel1 fuel2 acc h1 h2
    match n, fuel1, fuel2 with
    | 0, f1, f2 => cases f1 <;> cases f2 <;> simp [natToBinAcc]
    | m + 1, 0, _ => omega
    | m + 1, _ + 1, 0 => omega
    | m + 1, f1 + 1, f2 + 1 =>
      rw [natToBinAcc, natToBinAcc]
      exact ih ((m + 1) / 2) (by omega) f1 f2 _ (by omega) (by omega)

theorem natToBinGo_zero : natToBinGo 0 = [] := rfl

theorem natToBinGo_succ (n : Nat) :
    natToBinGo (n + 1) = natToBinGo ((n + 1) / 2) ++ [(n + 1) % 2 == 1] := by
  show natToBinAcc (n + 1) (n + 1) [] =
    natToBinAcc ((n + 1) / 2) ((n + 1) / 2) [] ++ [(n + 1) % 2 == 1]
  rw [natToBinAcc]
  rw [natToBinAcc_acc n ((n + 1) / 2) [((n + 1) % 2 == 1)]]
  congr 1
  exact natToBinAcc_congr ((n + 1) / 2) n ((n + 1) / 2) [] (by omega) (le_refl _)

theorem binaryToStringFuel_congr : ∀ (bits : List Bool) (fuel1 fuel2 : Nat),
    bits.length ≤ fuel1 → bits.length ≤ fuel2 →
    binaryToStringFuel fuel1 bits = binaryToStringFuel fuel2 bits
  | [], f1, f2, _, _ => by cases f1 <;> cases f2 <;> simp [binaryToStringFuel]
  | b :: bs, f1 + 1, f2 + 1, h1, h2 => by
    rw [binaryToStringFuel, binaryToStringFuel]
    congr 1
    exact binaryToStringFuel_congr ((b :: bs).drop 16) f1 f2
      (by simp only [List.length_drop, List.length_cons] at *; omega)
      (by simp only [List.length_drop, List.length_cons] at *; omega)
  | b :: bs, 0, _, h1, _ => by simp at h1
  | b :: bs, _ + 1, 0, _, h2 => by simp at h2
termination_by bits => bits.length
decreasing_by
  simp only [List.length_drop, List.length_cons]
  omega

theorem binaryToString_eq (bits : List Bool) :
    binaryToString bits =
      if bits = [] then []
      else bitsToNat (bits.take 16) :: binaryToString (bits.drop 16) := by
  cases bits with
  | nil => rfl
  | cons b bs =>
    rw [if_neg (by simp)]
    show binaryToStringFuel (bs.length + 1) (b :: bs) = _
    rw [binaryToStringFuel]
    congr 1
    exact binaryToStringFuel_congr ((b :: bs).drop 16) bs.length
      ((b :: bs).drop 16).length
      (by simp only [List.length_drop, List.length_cons]; omega) (le_refl _)

theorem bitsToNat_natToBinGo (n : Nat) : bitsToNat (natToBinGo n) = n := by
  induction n using Nat.strong_induction_on with
  | _ n ih =>
    match n with
    | 0 => simp [natToBinGo_zero, bitsToNat]
    | m + 1 =>
      rw [natToBinGo_succ, bitsToNat_append]
      rw [ih ((m + 1) / 2) (by omega)]
      have h2 : (m + 1) % 2 = 0 ∨ (m + 1) % 2 = 1 := by omega
      rcases h2 with h | h <;> simp [bitsToNat, h] <;> omega

theorem natToBinGo_length (k : Nat) : ∀ n, n < 2 ^ k → (natToBinGo n).length ≤ k := by
  induction k with
  | zero =>
    intro n hn
    interval_cases n
    simp [natToBinGo_zero]
  | succ k ih =>
    intro n hn
    match n with
    | 0 => simp [natToBinGo_zero]
    | m + 1 =>
      rw [natToBinGo_succ]
      simp only [List.length_append, List.length_cons, List.length_nil]
      have : (m + 1) / 2 < 2 ^ k := by
        have := Nat.pow_succ 2 k
        omega
      have := ih ((m + 1) / 2) this
      omega

theorem bitsToNat_natToBin (n : Nat) : bitsToNat (natToBin n) = n := by
  unfold natToBin
  split
  · simp [bitsToNat]; omega
  · exact bitsToNat_natToBinGo n

theorem natToBin_length_le {n k : Nat} (hk : 1 ≤ k) (hn : n < 2 ^ k) :
    (natToBin n).length ≤ k := by
  unfold natToBin
  split
  · simpa using hk
  · exact natToBinGo_length k n hn

theorem char16_length {c : Nat} (hc : c < 65536) : (char16 c).length = 16 := by
  have h2 : (2 : Nat) ^ 16 = 65536 := by norm_num
  have h := natToBin_length_le (n := c) (k := 16) (by norm_num) (by omega)
  simp only [char16, List.length_append, List.length_replicate]
  omega

theorem bitsToNat_char16 (c : Nat) : bitsToNat (char16 c) = c := by
  rw [char16, bitsToNat_replicate_false, bitsToNat_natToBin]

theorem lengthBin_length {n : Nat} (hn : n < 4294967296) :
    (lengthBin n).length = 32 := by
  have h2 : (2 : Nat) ^ 32 = 4294967296 := by norm_num
  have h := natToBin_length_le (n := n) (k := 32) (by norm_num) (by omega)
  simp only [lengthBin, List.length_append, List.length_replicate]
  omega

theorem bitsToNat_lengthBin (n : Nat) : bitsToNat (lengthBin n) = n := by
  rw [lengthBin, bitsToNat_replicate_false, bitsToNat_natToBin]

theorem stringToBinary_cons (c : Nat) (cs : List Nat) :
    stringToBinary (c :: cs) = char16 c ++ stringToBinary cs := by
  simp [stringToBinary]

theorem stringToBinary_length {msg : List Nat} (h : ∀ c ∈ msg, c < 65536) :
    (stringToBinary msg).length = 16 * msg.length := by
  induction msg with
  | nil => simp [stringToBinary]
  | cons c cs ih =>
    rw [stringToBinary_cons]
    simp only [List.length_append, List.length_cons]
    rw [char16_length (h c (by simp)), ih (fun x hx => h x (by simp [hx]))]
    ring

theorem binaryToString_nil : binaryToString [] = [] := rfl

theorem binaryToString_chunk {xs : List Bool} (ys : List Bool) (hxs : xs.length = 16) :
    binaryToString (xs ++ ys) = bitsToNat xs :: binaryToString ys := by
  have hne : xs ++ ys ≠ [] := by
    intro h
    have := congrArg List.length h
    simp [hxs] at this
  rw [binaryToString_eq, if_neg hne]
  congr 1
  · congr 1
    rw [List.take_append_eq_append_take, hxs]
    simp [List.take_of_length_le (le_of_eq hxs)]
  · congr 1
    rw [List.drop_append_eq_append_drop, hxs]
    simp [List.drop_of_length_le (le_of_eq hxs)]

theorem binaryToString_stringToBinary {msg : List Nat} (h : ∀ c ∈ msg, c < 65536) :
    binaryToString (stringToBinary msg) = msg := by
  induction msg with
  | nil => simp [stringToBinary, binaryToString_nil]
  | cons c cs ih =>
    rw [stringToBinary_cons,
      binaryToString_chunk _ (char16_length (h c (by simp))),
      bitsToNat_char16, ih (fun x hx => h x (by simp [hx]))]

/-! ## Helper lemmas: LSB primitives -/

theorem setLSB_mod2 (d : Nat) (b : Bool) : (setLSB d b % 2 == 1) = b := by
  cases b <;> simp [setLSB, Nat.mul_add_mod]

theorem setLSB_div2 (d : Nat) (b : Bool) : setLSB d b / 2 = d / 2 := by
  cases b <;> simp [setLSB] <;> omega

theorem xorLSB_mod2 (d : Nat) : (xorLSB d % 2 == 1) = !(d % 2 == 1) := by
  rcases Nat.even_or_odd d with h | h <;>
    [skip; skip] <;>
    · unfold xorLSB
      rcases Nat.mod_two_eq_zero_or_one d with h2 | h2 <;> simp [h2] <;> omega

theorem xorLSB_div2 (d : Nat) : xorLSB d / 2 = d / 2 := by
  unfold xorLSB
  rcases Nat.mod_two_eq_zero_or_one d with h2 | h2 <;> simp [h2] <;> omega

theorem xorLSB_ne (d : Nat) : xorLSB d ≠ d := by
  unfold xorLSB
  rcases Nat.mod_two_eq_zero_or_one d with h2 | h2 <;> simp [h2] <;> omega

/-! ## Helper lemmas: the image slot sequence -/

theorem writeLSBAux_length : ∀ (data : List Nat) (i : Nat) (bits : List Bool),
    (writeLSBAux i data bits).length = data.length
  | [], _, _ => by simp [writeLSBAux]
  | _ :: ds, i, [] => by simp [writeLSBAux]
  | d :: ds, i, b :: bs => by
    rw [writeLSBAux]
    split
    · simp [writeLSBAux_length ds (i + 1) (b :: bs)]
    · simp [writeLSBAux_length ds (i + 1) bs]

theorem slots_writeLSBAux : ∀ (data : List Nat) (i : Nat) (bits : List Bool),
    imageSlotsFrom i (writeLSBAux i data bits) =
      bits.take (imageSlotsFrom i data).length ++
        (imageSlotsFrom i data).drop bits.length
  | [], i, bits => by simp [writeLSBAux, imageSlotsFrom]
  | d :: ds, i, [] => by simp [writeLSBAux]
  | d :: ds, i, b :: bs => by
    rw [writeLSBAux]
    by_cases halpha : (i + 1) % 4 = 0
    · simp only [halpha, if_true]
      rw [imageSlotsFrom, if_pos halpha, imageSlotsFrom, if_pos halpha]
      exact slots_writeLSBAux ds (i + 1) (b :: bs)
    · simp only [halpha, if_false]
      rw [imageSlotsFrom, if_neg halpha, imageSlotsFrom, if_neg halpha]
      rw [setLSB_mod2]
      simp only [List.length_cons, List.take_succ_cons, List.drop_succ_cons,
        List.cons_append]
      rw [slots_writeLSBAux ds (i + 1) bs]

theorem readBits_fst : ∀ (data : List Nat) (i need : Nat),
    (readBits i data need).1 = (imageSlotsFrom i data).take need
  | [], i, need => by simp [readBits, imageSlotsFrom]
  | d :: ds, i, 0 => by
    rw [readBits]
    by_cases halpha : (i + 1) % 4 = 0 <;>
      simp [imageSlotsFrom, halpha]
  | d :: ds, i, need + 1 => by
    rw [readBits]
    by_cases halpha : (i + 1) % 4 = 0
    · simp only [halpha, if_true]
      rw [imageSlotsFrom, if_pos halpha]
      exact readBits_fst ds (i + 1) (need + 1)
    · simp only [halpha, if_false]
      rw [imageSlotsFrom, if_neg halpha]
      simp only [List.take_succ_cons]
      rw [readBits_fst ds (i + 1) need]

theorem readBits_rest : ∀ (data : List Nat) (i need : Nat),
    imageSlotsFrom (readBits i data need).2.2 (readBits i data need).2.1 =
      (imageSlotsFrom i data).drop need
  | [], i, need => by simp [readBits, imageSlotsFrom]
  | d :: ds, i, 0 => by simp [readBits]
  | d :: ds, i, need + 1 => by
    rw [readBits]
    by_cases halpha : (i + 1) % 4 = 0
    · simp only [halpha, if_true]
      rw [imageSlotsFrom, if_pos halpha]
      exact readBits_rest ds (i + 1) (need + 1)
    · simp only [halpha, if_false]
      rw [imageSlotsFrom, if_neg halpha]
      simp only [List.drop_succ_cons]
      exact readBits_rest ds (i + 1) need

theorem imageSlotsFrom_add4 : ∀ (data : List Nat) (i : Nat),
    imageSlotsFrom (i + 4) data = imageSlotsFrom i data
  | [], _ => rfl
  | d :: ds, i => by
    have hmod : (i + 4 + 1) % 4 = (i + 1) % 4 := by
      have : i + 4 + 1 = i + 1 + 4 := by ring
      rw [this, Nat.add_mod_right]
    rw [imageSlotsFrom, imageSlotsFrom, hmod, imageSlotsFrom_add4 ds (i + 1)]

theorem imageSlots_length_ge : ∀ data : List Nat,
    3 * data.length ≤ 4 * (imageSlots data).length
  | [] => by simp [imageSlots, imageSlotsFrom]
  | [a] => by simp [imageSlots, imageSlotsFrom]
  | [a, b] => by simp [imageSlots, imageSlotsFrom]
  | [a, b, c] => by simp [imageSlots, imageSlotsFrom]
  | a :: b :: c :: d :: rest => by
    have ih := imageSlots_length_ge rest
    have hexp : imageSlots (a :: b :: c :: d :: rest) =
        (a % 2 == 1) :: (b % 2 == 1) :: (c % 2 == 1) :: imageSlotsFrom 4 rest := rfl
    rw [hexp, imageSlotsFrom_add4 rest 0]
    simp only [imageSlots] at ih
    simp only [List.length_cons]
    omega

/-! ## Helper lemmas: byte-level preservation -/

theorem writeLSBAux_getD_div2 : ∀ (data : List Nat) (i : Nat) (bits : List Bool) (j : Nat),
    (writeLSBAux i data bits).getD j 0 / 2 = data.getD j 0 / 2
  | [], _, _, _ => by simp [writeLSBAux]
  | d :: ds, i, [], j => by simp [writeLSBAux]
  | d :: ds, i, b :: bs, j => by
    rw [writeLSBAux]
    by_cases halpha : (i + 1) % 4 = 0
    · simp only [halpha, if_true]
      match j with
      | 0 => simp
      | j + 1 =>
        simp only [List.getD_cons_succ]
        exact writeLSBAux_getD_div2 ds (i + 1) (b :: bs) j
    · simp only [halpha, if_false]
      match j with
      | 0 => simp [setLSB_div2]
      | j + 1 =>
        simp only [List.getD_cons_succ]
        exact writeLSBAux_getD_div2 ds (i + 1) bs j

theorem writeLSBAux_getD_alpha : ∀ (data : List Nat) (i : Nat) (bits : List Bool) (j : Nat),
    (i + j + 1) % 4 = 0 →
    (writeLSBAux i data bits).getD j 0 = data.getD j 0
  | [], _, _, _ => by simp [writeLSBAux]
  | d :: ds, i, [], j => by simp [writeLSBAux]
  | d :: ds, i, b :: bs, j => by
    intro hj
    rw [writeLSBAux]
    by_cases halpha : (i + 1) % 4 = 0
    · simp only [halpha, if_true]
      match j with
      | 0 => simp
      | j + 1 =>
        simp only [List.getD_cons_succ]
        exact writeLSBAux_getD_alpha ds (i + 1) (b :: bs) j (by omega)
    · simp only [halpha, if_false]
      match j with
      | 0 => omega
      | j + 1 =>
        simp only [List.getD_cons_succ]
        exact writeLSBAux_getD_alpha ds (i + 1) bs j (by omega)

theorem take_set_of_le {α : Type} : ∀ (l : List α) (n m : Nat) (x : α), m ≤ n →
    (l.set n x).take m = l.take m
  | [], _, _, _, _ => by simp
  | a :: l, n, 0, x, _ => by simp
  | a :: l, n + 1, m + 1, x, h => by
    rw [List.set_cons_succ]
    simp only [List.take_succ_cons]
    rw [take_set_of_le l n m x (by omega)]
  | a :: l, 0, m + 1, x, h => by omega

/-! ## Helper lemmas: the tamper simulator -/

theorem corruptImageAux_length : ∀ (data : List Nat) (i found : Nat),
    (corruptImageAux i found data).length = data.length
  | [], _, _ => rfl
  | d :: ds, i, found => by
    rw [corruptImageAux]
    split
    · simp [corruptImageAux_length ds (i + 1) found]
    · split
      · simp
      · simp [corruptImageAux_length ds (i + 1) (found + 1)]

theorem corruptImageAux_slots : ∀ (data : List Nat) (i found : Nat), found ≤ 43 →
    imageSlotsFrom i (corruptImageAux i found data) =
      (imageSlotsFrom i data).set (43 - found)
        (!((imageSlotsFrom i data).getD (43 - found) false))
  | [], _, _, _ => by simp [corruptImageAux, imageSlotsFrom]
  | d :: ds, i, found, hf => by
    rw [corruptImageAux]
    by_cases halpha : (i + 1) % 4 = 0
    · simp only [halpha, if_true]
      rw [imageSlotsFrom, if_pos halpha, imageSlotsFrom, if_pos halpha]
      exact corruptImageAux_slots ds (i + 1) found hf
    · simp only [halpha, if_false]
      by_cases hfound : 42 < found
      · have hf43 : found = 43 := by omega
        simp only [hfound, if_true]
        rw [imageSlotsFrom, if_neg halpha, imageSlotsFrom, if_neg halpha]
        rw [hf43]
        simp only [Nat.sub_self, List.set_cons_zero, List.getD_cons_zero]
        rw [xorLSB_mod2]
      · simp only [hfound, if_false]
        rw [imageSlotsFrom, if_neg halpha, imageSlotsFrom, if_neg halpha]
        have hsub : 43 - found = (42 - found) + 1 := by omega
        rw [hsub, List.set_cons_succ, List.getD_cons_succ]
        congr 1
        have := corruptImageAux_slots ds (i + 1) (found + 1) (by omega)
        have hsub2 : 43 - (found + 1) = 42 - found := by omega
        rw [hsub2] at this
        exact this

theorem corruptImageAux_getD_div2 : ∀ (data : List Nat) (i found j : Nat),
    (corruptImageAux i found data).getD j 0 / 2 = data.getD j 0 / 2
  | [], _, _, _ => by simp [corruptImageAux]
  | d :: ds, i, found, j => by
    rw [corruptImageAux]
    by_cases halpha : (i + 1) % 4 = 0
    · simp only [halpha, if_true]
      match j with
      | 0 => simp
      | j + 1 =>
        simp only [List.getD_cons_succ]
        exact corruptImageAux_getD_div2 ds (i + 1) found j
    · simp only [halpha, if_false]
      by_cases hfound : 42 < found
      · simp only [hfound, if_true]
        match j with
        | 0 => simp [xorLSB_div2]
        | j + 1 => simp
      · simp only [hfound, if_false]
        match j with
        | 0 => simp
        | j + 1 =>
          simp only [List.getD_cons_succ]
          exact corruptImageAux_getD_div2 ds (i + 1) (found + 1) j

theorem corruptImageAux_getD_alpha : ∀ (data : List Nat) (i found j : Nat),
    (i + j + 1) % 4 = 0 →
    (corruptImageAux i found data).getD j 0 = data.getD j 0
  | [], _, _, _ => by simp [corruptImageAux]
  | d :: ds, i, found, j => by
    intro hj
    rw [corruptImageAux]
    by_cases halpha : (i + 1) % 4 = 0
    · simp only [halpha, if_true]
      match j with
      | 0 => simp
      | j + 1 =>
        simp only [List.getD_cons_succ]
        exact corruptImageAux_getD_alpha ds (i + 1) found j (by omega)
    · simp only [halpha, if_false]
      by_cases hfound : 42 < found
      · simp only [hfound, if_true]
        match j with
        | 0 => omega
        | j + 1 => simp
      · simp only [hfound, if_false]
        match j with
        | 0 => omega
        | j + 1 =>
          simp only [List.getD_cons_succ]
          exact corruptImageAux_getD_alpha ds (i + 1) (found + 1) j (by omega)

/-! ## Helper lemmas: append/take/drop and the audio adapter -/

theorem take_append_exact {α : Type} (xs ys : List α) {n : Nat}
    (h : xs.length = n) : (xs ++ ys).take n = xs := by
  rw [List.take_append_eq_append_take, h]
  simp [List.take_of_length_le (le_of_eq h)]

theorem drop_append_exact {α : Type} (xs ys : List α) {n : Nat}
    (h : xs.length = n) : (xs ++ ys).drop n = ys := by
  rw [List.drop_append_eq_append_drop, h]
  simp [List.drop_of_length_le (le_of_eq h)]

theorem getD_append_right {α : Type} (xs ys : List α) (d : α) (i : Nat) :
    (xs ++ ys).getD (xs.length + i) d = ys.getD i d := by
  rw [List.getD_eq_getElem?_getD, List.getD_eq_getElem?_getD]
  rw [List.getElem?_append_right (show xs.length ≤ xs.length + i by omega)]
  have hidx : xs.length + i - xs.length = i := by omega
  rw [hidx]

theorem range_map_getD {α : Type} :
    ∀ (l : List α) (d : α) (n : Nat), n ≤ l.length →
    (List.range n).map (fun i => l.getD i d) = l.take n := by
  intro l d n
  induction l generalizing n with
  | nil =>
    intro h
    have h0 : n = 0 := by simpa using h
    subst h0
    simp
  | cons a l ih =>
    intro h
    match n with
    | 0 => simp
    | n + 1 =>
      rw [List.range_succ_eq_map]
      simp only [List.map_cons, List.map_map, List.getD_cons_zero,
        List.take_succ_cons]
      congr 1
      have := ih n (by simpa using h)
      rw [← this]
      apply List.map_congr_left
      intro x _
      simp

theorem writeAudio_length : ∀ (ds : List Nat) (bs : List Bool),
    (writeAudio ds bs).length = ds.length
  | ds, [] => by cases ds <;> simp [writeAudio]
  | [], b :: bs => by simp [writeAudio]
  | d :: ds, b :: bs => by simp [writeAudio, writeAudio_length ds bs]

theorem writeAudio_getD : ∀ (ds : List Nat) (bs : List Bool) (i : Nat),
    i < bs.length → i < ds.length →
    (writeAudio ds bs).getD i 0 = setLSB (ds.getD i 0) (bs.getD i false)
  | ds, [], i => by simp
  | [], b :: bs, i => by simp
  | d :: ds, b :: bs, 0 => by simp [writeAudio]
  | d :: ds, b :: bs, i + 1 => by
    intro h1 h2
    rw [writeAudio]
    simp only [List.getD_cons_succ]
    exact writeAudio_getD ds bs i (by simpa using h1) (by simpa using h2)

/-! ## Core roundtrip lemmas (shared by several claims) -/

theorem frameBits_length {fm : List Nat} (hchars : ∀ c ∈ fm, c < 65536)
    (hlen : 16 * fm.length < 4294967296) :
    (frameBits fm).length = 32 + 16 * fm.length := by
  have hbm := stringToBinary_length hchars
  simp only [frameBits, List.length_append, hbm]
  rw [lengthBin_length (by omega)]

theorem decodeImageCore_write (data fm : List Nat)
    (hne : fm ≠ []) (hchars : ∀ c ∈ fm, c < 65536)
    (hlen : 16 * fm.length < 4294967296)
    (hcap : (frameBits fm).length * 4 ≤ data.length * 3) :
    decodeImageCore (writeLSBAux 0 data (frameBits fm)) = .ok fm := by
  have hbm : (stringToBinary fm).length = 16 * fm.length := stringToBinary_length hchars
  have hhdr : (lengthBin (stringToBinary fm).length).length = 32 :=
    lengthBin_length (by omega)
  have hfl : (frameBits fm).length = 32 + 16 * fm.length :=
    frameBits_length hchars hlen
  have hslots : 3 * data.length ≤ 4 * (imageSlots data).length :=
    imageSlots_length_ge data
  have hfit : (frameBits fm).length ≤ (imageSlots data).length := by omega
  -- the slot sequence of the written carrier
  have hw : imageSlotsFrom 0 (writeLSBAux 0 data (frameBits fm)) =
      frameBits fm ++ (imageSlotsFrom 0 data).drop (frameBits fm).length := by
    rw [slots_writeLSBAux data 0 (frameBits fm)]
    congr 1
    exact List.take_of_length_le hfit
  have hassoc : frameBits fm ++ (imageSlotsFrom 0 data).drop (frameBits fm).length =
      lengthBin (stringToBinary fm).length ++
        (stringToBinary fm ++ (imageSlotsFrom 0 data).drop (frameBits fm).length) := by
    simp [frameBits]
  -- the header read
  have hr1 : (readBits 0 (writeLSBAux 0 data (frameBits fm)) 32).1 =
      lengthBin (stringToBinary fm).length := by
    rw [readBits_fst, hw, hassoc, take_append_exact _ _ hhdr]
  -- the body read
  have hrest : imageSlotsFrom (readBits 0 (writeLSBAux 0 data (frameBits fm)) 32).2.2
      (readBits 0 (writeLSBAux 0 data (frameBits fm)) 32).2.1 =
      stringToBinary fm ++ (imageSlotsFrom 0 data).drop (frameBits fm).length := by
    rw [readBits_rest, hw, hassoc, drop_append_exact _ _ hhdr]
  have hr2 : (readBits (readBits 0 (writeLSBAux 0 data (frameBits fm)) 32).2.2
      (readBits 0 (writeLSBAux 0 data (frameBits fm)) 32).2.1
      (stringToBinary fm).length).1 = stringToBinary fm := by
    rw [readBits_fst, hrest, take_append_exact _ _ rfl]
  have hL : bitsToNat (lengthBin (stringToBinary fm).length) =
      (stringToBinary fm).length := bitsToNat_lengthBin _
  have hwlen : (writeLSBAux 0 data (frameBits fm)).length = data.length :=
    writeLSBAux_length data 0 (frameBits fm)
  have hfmpos : 1 ≤ fm.length := by
    cases fm with
    | nil => exact absurd rfl hne
    | cons a l => simp
  simp only [decodeImageCore, hr1, hL, hwlen]
  have hne32 : lengthBin (stringToBinary fm).length ≠ [] := by
    intro h
    have := congrArg List.length h
    rw [hhdr] at this
    simp at this
  rw [if_neg hne32]
  have hguard : ¬ ((stringToBinary fm).length = 0 ∨
      (stringToBinary fm).length > data.length * 8) := by
    push_neg
    constructor
    · omega
    · omega
  rw [if_neg hguard, hbm] at *
  rw [hr2]
  rw [binaryToString_stringToBinary hchars]

theorem decodeAudioCore_write (samples fm : List Nat)
    (hne : fm ≠ []) (hchars : ∀ c ∈ fm, c < 65536)
    (hlen : 16 * fm.length < 4294967296)
    (hcap : (frameBits fm).length ≤ samples.length) :
    decodeAudioCore (writeAudio samples (frameBits fm)) = .ok fm := by
  have hbm : (stringToBinary fm).length = 16 * fm.length := stringToBinary_length hchars
  have hhdr : (lengthBin (stringToBinary fm).length).length = 32 :=
    lengthBin_length (by omega)
  have hfl : (frameBits fm).length = 32 + 16 * fm.length :=
    frameBits_length hchars hlen
  have hfmpos : 1 ≤ fm.length := by
    cases fm with
    | nil => exact absurd rfl hne
    | cons a l => simp
  have hwlen : (writeAudio samples (frameBits fm)).length = samples.length :=
    writeAudio_length samples (frameBits fm)
  -- any bit of the written region reads back as the frame bit
  have hbit : ∀ i, i < (frameBits fm).length →
      ((writeAudio samples (frameBits fm)).getD i 0 % 2 == 1) =
        (frameBits fm).getD i false := by
    intro i hi
    rw [writeAudio_getD samples (frameBits fm) i hi (by omega), setLSB_mod2]
  -- the 32 header bits
  have hhdrbits : (List.range 32).map
      (fun i => (writeAudio samples (frameBits fm)).getD i 0 % 2 == 1) =
      lengthBin (stringToBinary fm).length := by
    have h1 : (List.range 32).map
        (fun i => (writeAudio samples (frameBits fm)).getD i 0 % 2 == 1) =
        (List.range 32).map (fun i => (frameBits fm).getD i false) := by
      apply List.map_congr_left
      intro i hi
      exact hbit i (by simp at hi; omega)
    rw [h1, range_map_getD (frameBits fm) false 32 (by omega)]
    simp only [frameBits]
    rw [List.take_append_eq_append_take, hhdr]
    simp [List.take_of_length_le (le_of_eq hhdr)]
  -- the body bits
  have hbody : (List.range (stringToBinary fm).length).map
      (fun i => (writeAudio samples (frameBits fm)).getD (32 + i) 0 % 2 == 1) =
      stringToBinary fm := by
    have h1 : (List.range (stringToBinary fm).length).map
        (fun i => (writeAudio samples (frameBits fm)).getD (32 + i) 0 % 2 == 1) =
        (List.range (stringToBinary fm).length).map
          (fun i => (frameBits fm).getD (32 + i) false) := by
      apply List.map_congr_left
      intro i hi
      exact hbit (32 + i) (by simp at hi; omega)
    rw [h1]
    have h2 : ∀ i ∈ List.range (stringToBinary fm).length,
        (frameBits fm).getD (32 + i) false = (stringToBinary fm).getD i false := by
      intro i _
      have := getD_append_right
        (lengthBin (stringToBinary fm).length) (stringToBinary fm) false i
      simp only [frameBits]
      rw [hhdr] at this
      simpa using this
    rw [List.map_congr_left h2, range_map_getD _ _ _ (le_refl _)]
    simp
  simp only [decodeAudioCore, hhdrbits, bitsToNat_lengthBin, hwlen]
  have hguard : ¬ ((stringToBinary fm).length = 0 ∨
      (stringToBinary fm).length > samples.length) := by
    push_neg
    omega
  rw [if_neg hguard, hbody, binaryToString_stringToBinary hchars]

/-! ## Helper lemmas: base64 -/

theorem b64charAt_valid : ∀ v < 64, b64index (b64charAt v) = some v := by decide

theorem b64charAt_not_ws_small : ∀ v < 64, wsChars.contains (b64charAt v) = false := by
  decide

theorem b64charAt_ne_61_small : ∀ v < 64, b64charAt v ≠ 61 := by decide

theorem b64charAt_ne_61 (v : Nat) : b64charAt v ≠ 61 := by
  by_cases h : v < 64
  · exact b64charAt_ne_61_small v h
  · unfold b64charAt
    rw [List.getD_eq_default _ _ (by simp [b64chars]; omega)]
    omega

theorem b64charAt_not_ws (v : Nat) : wsChars.contains (b64charAt v) = false := by
  by_cases h : v < 64
  · exact b64charAt_not_ws_small v h
  · unfold b64charAt
    rw [List.getD_eq_default _ _ (by simp [b64chars]; omega)]
    decide

theorem mem_b64body : ∀ (m : List Nat), ∀ y ∈ b64body m, ∃ v, y = b64charAt v
  | [], y, hy => by simp [b64body] at hy
  | [a], y, hy => by
    simp [b64body] at hy
    rcases hy with h | h <;> exact ⟨_, h⟩
  | [a, b], y, hy => by
    simp [b64body] at hy
    rcases hy with h | h | h <;> exact ⟨_, h⟩
  | a :: b :: c :: rest, y, hy => by
    rw [b64body] at hy
    simp only [List.mem_cons] at hy
    rcases hy with h | h | h | h | h
    · exact ⟨_, h⟩
    · exact ⟨_, h⟩
    · exact ⟨_, h⟩
    · exact ⟨_, h⟩
    · exact mem_b64body rest y h

theorem mem_b64encode : ∀ (m : List Nat), ∀ y ∈ b64encode m,
    y = 61 ∨ ∃ v, y = b64charAt v
  | [], y, hy => by simp [b64encode] at hy
  | [a], y, hy => by
    simp [b64encode] at hy
    rcases hy with h | h | h
    · exact .inr ⟨_, h⟩
    · exact .inr ⟨_, h⟩
    · exact .inl h
  | [a, b], y, hy => by
    simp [b64encode] at hy
    rcases hy with h | h | h | h
    · exact .inr ⟨_, h⟩
    · exact .inr ⟨_, h⟩
    · exact .inr ⟨_, h⟩
    · exact .inl h
  | a :: b :: c :: rest, y, hy => by
    rw [b64encode] at hy
    simp only [List.mem_cons] at hy
    rcases hy with h | h | h | h | h
    · exact .inr ⟨_, h⟩
    · exact .inr ⟨_, h⟩
    · exact .inr ⟨_, h⟩
    · exact .inr ⟨_, h⟩
    · exact mem_b64encode rest y h

theorem b64encode_length_mod : ∀ m : List Nat, (b64encode m).length % 4 = 0
  | [] => by simp [b64encode]
  | [a] => by simp [b64encode]
  | [a, b] => by simp [b64encode]
  | a :: b :: c :: rest => by
    rw [b64encode]
    simp only [List.length_cons]
    have := b64encode_length_mod rest
    omega

theorem b64body_length_mod : ∀ m : List Nat, (b64body m).length % 4 ≠ 1
  | [] => by simp [b64body]
  | [a] => by simp [b64body]
  | [a, b] => by simp [b64body]
  | a :: b :: c :: rest => by
    rw [b64body]
    simp only [List.length_cons]
    have := b64body_length_mod rest
    omega

theorem b64encode_eq_body_pad : ∀ m : List Nat,
    b64encode m = b64body m ++
      (if m.length % 3 = 0 then [] else if m.length % 3 = 1 then [61, 61] else [61])
  | [] => by simp [b64encode, b64body]
  | [a] => by simp [b64encode, b64body]
  | [a, b] => by simp [b64encode, b64body]
  | a :: b :: c :: rest => by
    rw [b64encode, b64body]
    have ih := b64encode_eq_body_pad rest
    have hmod : (a :: b :: c :: rest).length % 3 = rest.length % 3 := by
      simp only [List.length_cons]
      omega
    rw [hmod]
    simp only [List.cons_append]
    congr 1
    congr 1
    congr 1
    congr 1

theorem b64body_getLast_ne : ∀ m : List Nat, (b64body m).getLast? ≠ some 61 := by
  intro m h
  have hy := List.mem_of_mem_getLast? h
  obtain ⟨v, hv⟩ := mem_b64body m 61 hy
  exact b64charAt_ne_61 v hv.symm

theorem stripTrailingEq_cons61 (rest : List Nat) :
    stripTrailingEq (61 :: rest) = rest := by
  simp [stripTrailingEq]

theorem stripTrailingEq_of_head_ne {r : List Nat} (h : r.head? ≠ some 61) :
    stripTrailingEq r = r := by
  simp [stripTrailingEq, h]

theorem stripPad_append2 (x : List Nat) : stripPad (x ++ [61, 61]) = x := by
  unfold stripPad
  rw [List.reverse_append]
  simp only [List.reverse_cons, List.reverse_nil, List.nil_append,
    List.cons_append, List.singleton_append]
  rw [stripTrailingEq_cons61, stripTrailingEq_cons61, List.reverse_reverse]

theorem stripPad_of_getLast_ne {x : List Nat} (h : x.getLast? ≠ some 61) :
    stripPad x = x := by
  unfold stripPad
  have hh : x.reverse.head? ≠ some 61 := by
    rw [List.head?_reverse]
    exact h
  rw [stripTrailingEq_of_head_ne hh, stripTrailingEq_of_head_ne hh,
    List.reverse_reverse]

theorem stripPad_append1 {x : List Nat} (h : x.getLast? ≠ some 61) :
    stripPad (x ++ [61]) = x := by
  unfold stripPad
  rw [List.reverse_append]
  simp only [List.reverse_cons, List.reverse_nil, List.nil_append,
    List.singleton_append]
  rw [stripTrailingEq_cons61]
  have hh : x.reverse.head? ≠ some 61 := by
    rw [List.head?_reverse]
    exact h
  rw [stripTrailingEq_of_head_ne hh, List.reverse_reverse]

theorem b64sextets_append {l1 l2 : List Nat} {v1 v2 : List Nat}
    (h1 : b64sextets l1 = some v1) (h2 : b64sextets l2 = some v2) :
    b64sextets (l1 ++ l2) = some (v1 ++ v2) := by
  induction l1 generalizing v1 with
  | nil =>
    simp [b64sextets] at h1
    subst h1
    simpa using h2
  | cons c cs ih =>
    rw [b64sextets] at h1
    match hidx : b64index c, hrest : b64sextets cs with
    | some v, some vs =>
      rw [hidx, hrest] at h1
      injection h1 with h1
      subst h1
      rw [List.cons_append, b64sextets, hidx, ih hrest]
      rfl
    | some v, none => rw [hidx, hrest] at h1; exact absurd h1 (by simp)
    | none, _ => rw [hidx] at h1; exact absurd h1 (by simp)

theorem b64body_decode : ∀ m : List Nat, (∀ x ∈ m, x < 256) →
    ∃ vs, b64sextets (b64body m) = some vs ∧ atobDecode vs = m
  | [], _ => ⟨[], by simp [b64body, b64sextets], by simp [atobDecode]⟩
  | [a], h => by
    have ha : a < 256 := h a (by simp)
    refine ⟨[a / 4, a % 4 * 16], ?_, ?_⟩
    · rw [b64body]
      rw [b64sextets, b64charAt_valid (a / 4) (by omega)]
      rw [b64sextets, b64charAt_valid (a % 4 * 16) (by omega)]
      rw [b64sextets]
    · rw [atobDecode]
      congr 1
      omega
  | [a, b], h => by
    have ha : a < 256 := h a (by simp)
    have hb : b < 256 := h b (by simp)
    refine ⟨[a / 4, a % 4 * 16 + b / 16, b % 16 * 4], ?_, ?_⟩
    · rw [b64body]
      rw [b64sextets, b64charAt_valid (a / 4) (by omega)]
      rw [b64sextets, b64charAt_valid (a % 4 * 16 + b / 16) (by omega)]
      rw [b64sextets, b64charAt_valid (b % 16 * 4) (by omega)]
      rw [b64sextets]
    · rw [atobDecode]
      congr 1
      · omega
      · congr 1
        omega
  | a :: b :: c :: rest, h => by
    have ha : a < 256 := h a (by simp)
    have hb : b < 256 := h b (by simp)
    have hc : c < 256 := h c (by simp)
    obtain ⟨vs, hvs, hdec⟩ := b64body_decode rest (fun x hx => h x (by simp [hx]))
    refine ⟨[a / 4, a % 4 * 16 + b / 16, b % 16 * 4 + c / 64, c % 64] ++ vs, ?_, ?_⟩
    · rw [b64body]
      have hfour : b64sextets [b64charAt (a / 4), b64charAt (a % 4 * 16 + b / 16),
          b64charAt (b % 16 * 4 + c / 64), b64charAt (c % 64)] =
          some [a / 4, a % 4 * 16 + b / 16, b % 16 * 4 + c / 64, c % 64] := by
        rw [b64sextets, b64charAt_valid (a / 4) (by omega)]
        rw [b64sextets, b64charAt_valid (a % 4 * 16 + b / 16) (by omega)]
        rw [b64sextets, b64charAt_valid (b % 16 * 4 + c / 64) (by omega)]
        rw [b64sextets, b64charAt_valid (c % 64) (by omega)]
        rw [b64sextets]
      have := b64sextets_append hfour hvs
      simpa using this
    · simp only [List.cons_append, List.nil_append]
      rw [atobDecode]
      rw [hdec]
      congr 1
      · omega
      · congr 1
        · omega
        · congr 1
          omega

theorem atob_b64encode (m : List Nat) (h : ∀ x ∈ m, x < 256) :
    atob (b64encode m) = some m := by
  have hfilter : (b64encode m).filter (fun c => !(wsChars.contains c)) = b64encode m := by
    apply List.filter_eq_self.mpr
    intro y hy
    rcases mem_b64encode m y hy with h61 | ⟨v, hv⟩
    · subst h61
      decide
    · subst hv
      rw [b64charAt_not_ws]
      rfl
  have hmod : (b64encode m).length % 4 = 0 := b64encode_length_mod m
  have hstrip : stripPad (b64encode m) = b64body m := by
    rw [b64encode_eq_body_pad m]
    by_cases h0 : m.length % 3 = 0
    · simp only [h0, if_true, List.append_nil]
      exact stripPad_of_getLast_ne (b64body_getLast_ne m)
    · by_cases h1 : m.length % 3 = 1
      · simp only [h0, h1, if_false, if_true]
        exact stripPad_append2 _
      · simp only [h0, h1, if_false]
        exact stripPad_append1 (b64body_getLast_ne m)
  obtain ⟨vs, hvs, hdec⟩ := b64body_decode m h
  rw [atob]
  simp only [hfilter, hmod, if_true, hstrip]
  rw [if_neg (b64body_length_mod m), hvs]
  show some (atobDecode vs) = some m
  rw [hdec]

/-! ## Helper lemmas: successful-encode inversions -/

theorem encodeImageRun_ok {data fm out : List Nat}
    (h : encodeImageRun data fm = (none, out)) :
    (frameBits fm).length * 4 ≤ data.length * 3 ∧
      out = writeLSBAux 0 data (frameBits fm) := by
  unfold encodeImageRun at h
  split at h
  · exact absurd h (by simp)
  · rename_i hcond
    rw [Prod.mk.injEq] at h
    exact ⟨by omega, h.2.symm⟩

theorem encodeAudioRun_ok {samples fm out : List Nat}
    (h : encodeAudioRun samples fm = (none, out)) :
    (frameBits fm).length ≤ samples.length ∧
      out = writeAudio samples (frameBits fm) := by
  unfold encodeAudioRun at h
  split at h
  · exact absurd h (by simp)
  · rename_i hcond
    rw [Prod.mk.injEq] at h
    exact ⟨by omega, h.2.symm⟩

theorem btoa_ok {s out : List Nat} (h : btoa s = some out) :
    (∀ x ∈ s, x < 256) ∧ out = b64encode s := by
  unfold btoa at h
  split at h
  · rename_i hall
    injection h with h
    exact ⟨fun x hx => by simpa using List.all_eq_true.mp hall x hx, h.symm⟩
  · exact absurd h (by simp)

theorem decodePdf_marker_b64 {fm : List Nat} (hfm : ∀ x ∈ fm, x < 256)
    (pw : Option (List Nat → Except StegoError (List Nat))) :
    decodePdf (some (pdfMarker ++ b64encode fm)) pw =
      (match pw with | none => .ok fm | some dec => dec fm) := by
  unfold decodePdf
  simp only
  rw [if_pos (take_append_exact (n := 15) pdfMarker (b64encode fm) rfl),
    drop_append_exact (n := 15) pdfMarker (b64encode fm) rfl,
    atob_b64encode fm hfm]

/-! ## Claim theorems -/

/-- C6: `frame` encodes each character of its input as exactly 16 big-endian
bits (`char16 c` has length 16 and big-endian value `c`), concatenates them,
and prepends a 32-bit big-endian count of the body bits; in particular,
framing the 5-character message "hello" (codes 104 101 108 108 111) yields a
frame of exactly 112 bits (32 header bits + 80 body bits), and decoding
recovers exactly "hello". -/
theorem C6_frame_format (msg : List Nat) (n : Nat)
    (hmsg : ∀ c ∈ msg, c < 65536) (hn : n < 4294967296) :
    (stringToBinary msg).length = 16 * msg.length ∧
    (∀ c ∈ msg, (char16 c).length = 16 ∧ bitsToNat (char16 c) = c) ∧
    stringToBinary msg = (msg.map char16).flatten ∧
    binaryToString (stringToBinary msg) = msg ∧
    (lengthBin n).length = 32 ∧
    bitsToNat (lengthBin n) = n ∧
    (frameBits [104, 101, 108, 108, 111]).length = 112 ∧
    binaryToString (stringToBinary [104, 101, 108, 108, 111]) =
      [104, 101, 108, 108, 111] := by
  refine ⟨stringToBinary_length hmsg,
    fun c hc => ⟨char16_length (hmsg c hc), bitsToNat_char16 c⟩,
    rfl,
    binaryToString_stringToBinary hmsg,
    lengthBin_length hn,
    bitsToNat_lengthBin n,
    by decide,
    by decide⟩

/-- Witness for C6 at the concrete message "hello" and body length 80. -/
theorem C6_frame_format_witness :
    binaryToString (stringToBinary [104, 101, 108, 108, 111]) =
      [104, 101, 108, 108, 111] :=
  (C6_frame_format [104, 101, 108, 108, 111] 80 (by decide) (by decide)).2.2.2.1

/-- C9: for every image byte buffer and bit sequence, the image write
operation changes at most the least-significant bit of each non-alpha channel
byte — the upper bits of every byte are unchanged and every 4th byte (the
alpha channel, index `j` with `(j+1) % 4 = 0`) is entirely unchanged — and
the read operation returns the least-significant bits of the included bytes
in the same sequence order they were written. -/
theorem C9_image_write_effect (data : List Nat) (bits : List Bool) :
    (writeLSBAux 0 data bits).length = data.length ∧
    (∀ j, (j + 1) % 4 = 0 →
      (writeLSBAux 0 data bits).getD j 0 = data.getD j 0) ∧
    (∀ j, (writeLSBAux 0 data bits).getD j 0 / 2 = data.getD j 0 / 2) ∧
    imageSlots (writeLSBAux 0 data bits) =
      bits.take (imageSlots data).length ++ (imageSlots data).drop bits.length ∧
    (bits.length ≤ (imageSlots data).length →
      (readBits 0 (writeLSBAux 0 data bits) bits.length).1 = bits) := by
  refine ⟨writeLSBAux_length data 0 bits,
    fun j hj => writeLSBAux_getD_alpha data 0 bits j (by omega),
    fun j => writeLSBAux_getD_div2 data 0 bits j,
    slots_writeLSBAux data 0 bits,
    fun hle => ?_⟩
  rw [readBits_fst]
  have hs : imageSlotsFrom 0 (writeLSBAux 0 data bits) =
      bits ++ (imageSlotsFrom 0 data).drop bits.length := by
    rw [slots_writeLSBAux data 0 bits]
    congr 1
    exact List.take_of_length_le hle
  rw [hs, take_append_exact _ _ rfl]

/-- Witness for C9: concrete buffer `[7, 7, 7, 255]` with one written bit;
the alpha byte at index 3 is untouched. -/
theorem C9_image_write_effect_witness :
    (writeLSBAux 0 [7, 7, 7, 255] [true]).getD 3 0 =
      ([7, 7, 7, 255] : List Nat).getD 3 0 :=
  (C9_image_write_effect [7, 7, 7, 255] [true]).2.1 3 (by decide)

/-- C4: for every image or audio carrier and final message: if the framed
bit-length exceeds the carrier's capacity (3/4 of the channel byte count for
images, the data-chunk byte count for audio) the write fails with
`capacityExceeded` and leaves every carrier byte unmodified (the returned
buffer is the untouched input buffer); if the framed bit-length equals the
capacity exactly, encoding succeeds. -/
theorem C4_capacity_boundary (data fm samples fm2 : List Nat) :
    ((frameBits fm).length * 4 > data.length * 3 →
      encodeImageRun data fm = (some .capacityExceeded, data)) ∧
    ((frameBits fm).length * 4 = data.length * 3 →
      (encodeImageRun data fm).1 = none) ∧
    ((frameBits fm2).length > samples.length →
      encodeAudioRun samples fm2 = (some .capacityExceeded, samples)) ∧
    ((frameBits fm2).length = samples.length →
      (encodeAudioRun samples fm2).1 = none) := by
  refine ⟨fun hover => ?_, fun heq => ?_, fun hover => ?_, fun heq => ?_⟩
  · rw [encodeImageRun, if_pos hover]
  · rw [encodeImageRun, if_neg (by omega)]
  · rw [encodeAudioRun, if_pos hover]
  · rw [encodeAudioRun, if_neg (by omega)]

/-- Witness for C4: a 48-bit frame against image carriers of 63 and 64 bytes
(capacities 47.25 and 48 bits) and audio chunks of 47 and 48 bytes. -/
theorem C4_capacity_boundary_witness :
    encodeImageRun (List.replicate 63 0) [104] =
      (some .capacityExceeded, List.replicate 63 0) ∧
    (encodeImageRun (List.replicate 64 0) [104]).1 = none ∧
    encodeAudioRun (List.replicate 47 0) [104] =
      (some .capacityExceeded, List.replicate 47 0) ∧
    (encodeAudioRun (List.replicate 48 0) [104]).1 = none :=
  ⟨(C4_capacity_boundary (List.replicate 63 0) [104] [] []).1 (by decide),
   (C4_capacity_boundary (List.replicate 64 0) [104] [] []).2.1 (by decide),
   (C4_capacity_boundary [] [] (List.replicate 47 0) [104]).2.2.1 (by decide),
   (C4_capacity_boundary [] [] (List.replicate 48 0) [104]).2.2.2 (by decide)⟩

/-- C2: whenever AES-GCM tag verification fails (`crypto.subtle.decrypt`
rejects with an `OperationError`, modelled by `aes` returning `none` — in
particular when decrypting with a password other than the encoding one),
`decryptMessage` fails with the Integrity error, and that error kind is
distinct from every other error kind the pipeline raises. -/
theorem C2_integrity_distinct
    (s iv d : List Nat) (aes : List Nat → List Nat → List Nat → Option (List Nat))
    (htag : aes s iv d = none) :
    decryptMessage (.parsed (some s) (some iv) (some d)) aes = .error .integrity ∧
    StegoError.integrity ≠ StegoError.capacityExceeded ∧
    StegoError.integrity ≠ StegoError.noHeaderFound ∧
    StegoError.integrity ≠ StegoError.noHiddenData ∧
    StegoError.integrity ≠ StegoError.malformedEncoding ∧
    StegoError.integrity ≠ StegoError.decryptionFailed ∧
    StegoError.integrity ≠ StegoError.invalidCharacter := by
  refine ⟨?_, by decide, by decide, by decide, by decide, by decide, by decide⟩
  simp [decryptMessage, decryptInner, htag]

/-- Witness for C2 at a concrete envelope whose tag verification fails. -/
theorem C2_integrity_distinct_witness :
    decryptMessage (.parsed (some []) (some []) (some []))
      (fun _ _ _ => none) = .error .integrity :=
  (C2_integrity_distinct [] [] [] (fun _ _ _ => none) rfl).1

/-- C7 (code bug): an input that does not parse as the three-field envelope
(`ParseOutcome.fail`, e.g. text that is not JSON) or that lacks one of the
fields is NOT reported as a distinct malformed-envelope error: the inner
`throw new Error("Invalid payload format...")` / `"Corrupted encryption
header."` are caught by the outer `catch`, whose `error.name !==
'OperationError'` branch replaces them with the generic "Decryption failed.
Invalid password or corrupted data." error. -/
theorem C7_malformed_folded_into_generic :
    decryptMessage .fail (fun _ _ _ => none) = .error .decryptionFailed ∧
    decryptMessage (.parsed none (some []) (some [])) (fun _ _ _ => none) =
      .error .decryptionFailed :=
  ⟨rfl, rfl⟩

/-- C10: `encodePdf` called without a password fails (the direct `btoa` of
the raw message throws) for every message containing a character above
`U+00FF`, while the password-mode path succeeds whenever the envelope text
produced by encryption is Latin-1 (it is ASCII JSON in reality). -/
theorem C10_pdf_latin1_only (msg : List Nat) (enc : List Nat → List Nat)
    (hnl : ¬ (∀ c ∈ msg, c < 256)) (henc : ∀ x ∈ enc msg, x < 256) :
    encodePdf msg none = .error .invalidCharacter ∧
    encodePdf msg (some enc) = .ok (some (pdfMarker ++ b64encode (enc msg))) := by
  constructor
  · have hall : msg.all (fun c => decide (c < 256)) = false := by
      rw [Bool.eq_false_iff]
      intro hall
      exact hnl fun c hc => by simpa using List.all_eq_true.mp hall c hc
    simp [encodePdf, btoa, hall]
  · have hall2 : (enc msg).all (fun c => decide (c < 256)) = true :=
      List.all_eq_true.mpr fun c hc => by simpa using henc c hc
    simp [encodePdf, btoa, hall2]

/-- Witness for C10 at the one-character message `U+0100`. -/
theorem C10_pdf_latin1_only_witness :
    encodePdf [256] none = .error .invalidCharacter :=
  (C10_pdf_latin1_only [256] (fun _ => []) (by decide) (by simp)).1

/-- C8: `decodePdf` fails with `noHiddenData` when the Subject field is
absent or does not start with the marker `STEGAPP_HIDDEN:`, fails with
`malformedEncoding` when the text after the marker is not valid base64, and
on success the data was stored under that exact fixed marker: every
successful `encodePdf` writes `marker ++ base64`, and every successful
`decodePdf` read comes from a Subject of that shape. -/
theorem C8_pdf_errors (s raw msg : List Nat)
    (pw : Option (List Nat → Except StegoError (List Nat)))
    (pwe : Option (List Nat → List Nat))
    (hns : s.take 15 ≠ pdfMarker) (hbad : atob raw = none) :
    decodePdf none pw = .error .noHiddenData ∧
    decodePdf (some s) pw = .error .noHiddenData ∧
    decodePdf (some (pdfMarker ++ raw)) pw = .error .malformedEncoding ∧
    (∀ subj, encodePdf msg pwe = .ok subj →
      ∃ b, subj = some (pdfMarker ++ b) ∧
        btoa (match pwe with | some enc => enc msg | none => msg) = some b) ∧
    (∀ t m, decodePdf (some t) none = .ok m →
      t.take 15 = pdfMarker ∧ atob (t.drop 15) = some m) := by
  refine ⟨rfl, ?_, ?_, ?_, ?_⟩
  · simp [decodePdf, hns]
  · have h15 : (pdfMarker ++ raw).take 15 = pdfMarker :=
      take_append_exact _ _ rfl
    have hd15 : (pdfMarker ++ raw).drop 15 = raw :=
      drop_append_exact _ _ rfl
    simp [decodePdf, h15, hd15, hbad]
  · intro subj hok
    unfold encodePdf at hok
    cases pwe with
    | none =>
      simp only at hok ⊢
      rcases hbt : btoa msg with _ | b
      · rw [hbt] at hok
        exact absurd hok (by simp)
      · rw [hbt] at hok
        injection hok with hok
        exact ⟨b, hok.symm, rfl⟩
    | some enc =>
      simp only at hok ⊢
      rcases hbt : btoa (enc msg) with _ | b
      · rw [hbt] at hok
        exact absurd hok (by simp)
      · rw [hbt] at hok
        injection hok with hok
        exact ⟨b, hok.symm, rfl⟩
  · intro t m hok
    rw [decodePdf] at hok
    by_cases ht : t.take 15 = pdfMarker
    · refine ⟨ht, ?_⟩
      rw [if_pos ht] at hok
      match ha : atob (t.drop 15) with
      | none => rw [ha] at hok; exact absurd hok (by simp)
      | some decoded =>
        rw [ha] at hok
        simp only at hok
        injection hok with hok
        rw [hok]
    · rw [if_neg ht] at hok
      exact absurd hok (by simp)

/-- Witness for C8 at a non-marker Subject `[0]` and the invalid base64
text `"!"`. -/
theorem C8_pdf_errors_witness :
    decodePdf (some (pdfMarker ++ [33])) none = .error .malformedEncoding :=
  (C8_pdf_errors [0] [33] [] none none (by decide) (by decide)).2.2.1

/-- C3 counterexample: the claim asserts that after a header passing the
guard, deframe "reads exactly declaredLength further bits (never fewer)".
Take a 44-byte image carrier (33 usable slots) whose first 32 slots carry the
header value 100.  The guard passes (`0 < 100 ≤ 44 * 8 = 352`), so the claim
demands 100 body bits, i.e. a `⌈100/16⌉ = 7`-character result; the code runs
out of slots after a single body bit and returns the 1-character string
`"\x00"`. -/
theorem C3_counterexample :
    decodeImageCore (writeLSBAux 0 (List.replicate 44 0) (lengthBin 100)) =
      Except.ok [0] ∧
    ([0] : List Nat).length ≠ 7 :=
  ⟨rfl, by decide⟩

/-- C3 amended: deframe reads up to 32 header bits (the first 32 slots;
fewer only if the carrier ends) as `declaredLength`, and fails
(`noHeaderFound` for images, `noHiddenData` for audio) exactly when a
non-empty header was read and `declaredLength = 0` or `declaredLength`
exceeds `8 ×` the carrier byte count (image) resp. the data-chunk byte count
(audio); otherwise it reads **up to** `declaredLength` further bits — the
image reader stops early when the slot sequence is exhausted, the audio
reader substitutes 0 for bits past the chunk's end — before splitting into
16-bit groups and mapping each group back to a character. -/
theorem C3_deframe_amended (data samples : List Nat) :
    (readBits 0 data 32).1 = (imageSlots data).take 32 ∧
    (decodeImageCore data = .error .noHeaderFound ↔
      ((readBits 0 data 32).1 ≠ [] ∧
        (bitsToNat (readBits 0 data 32).1 = 0 ∨
          bitsToNat (readBits 0 data 32).1 > data.length * 8))) ∧
    (∀ m, decodeImageCore data = .ok m → (readBits 0 data 32).1 ≠ [] →
      m = binaryToString
        (((imageSlots data).drop 32).take (bitsToNat (readBits 0 data 32).1))) ∧
    (decodeAudioCore samples = .error .noHiddenData ↔
      (bitsToNat ((List.range 32).map (fun i => samples.getD i 0 % 2 == 1)) = 0 ∨
        bitsToNat ((List.range 32).map (fun i => samples.getD i 0 % 2 == 1)) >
          samples.length)) ∧
    (∀ m, decodeAudioCore samples = .ok m →
      m = binaryToString ((List.range
          (bitsToNat ((List.range 32).map (fun i => samples.getD i 0 % 2 == 1)))).map
          (fun i => samples.getD (32 + i) 0 % 2 == 1))) := by
  refine ⟨readBits_fst data 0 32, ?_, ?_, ?_, ?_⟩
  · by_cases h1 : (readBits 0 data 32).1 = []
    · simp [decodeImageCore, h1]
    · by_cases h2 : bitsToNat (readBits 0 data 32).1 = 0 ∨
          bitsToNat (readBits 0 data 32).1 > data.length * 8
      · simp only [decodeImageCore, if_neg h1, if_pos h2]
        simp [h1, h2]
      · simp only [decodeImageCore, if_neg h1, if_neg h2]
        simp [h1, h2]
  · intro m hok hne
    simp only [decodeImageCore, if_neg hne] at hok
    by_cases h2 : bitsToNat (readBits 0 data 32).1 = 0 ∨
        bitsToNat (readBits 0 data 32).1 > data.length * 8
    · rw [if_pos h2] at hok
      exact absurd hok (by simp)
    · rw [if_neg h2] at hok
      injection hok with hok
      rw [← hok, readBits_fst, readBits_rest]
      rfl
  · by_cases hg : bitsToNat ((List.range 32).map (fun i => samples.getD i 0 % 2 == 1)) = 0 ∨
        bitsToNat ((List.range 32).map (fun i => samples.getD i 0 % 2 == 1)) >
          samples.length
    · simp only [decodeAudioCore, if_pos hg]
      exact iff_of_true trivial hg
    · simp only [decodeAudioCore, if_neg hg]
      exact iff_of_false (by simp) hg
  · intro m hok
    simp only [decodeAudioCore] at hok
    by_cases hg : bitsToNat ((List.range 32).map (fun i => samples.getD i 0 % 2 == 1)) = 0 ∨
        bitsToNat ((List.range 32).map (fun i => samples.getD i 0 % 2 == 1)) >
          samples.length
    · rw [if_pos hg] at hok
      exact absurd hok (by simp)
    · rw [if_neg hg] at hok
      injection hok with hok
      exact hok.symm

/-- Witness for C3 amended at the counterexample carrier: the decoded result
equals the declared-length-truncated slot read. -/
theorem C3_deframe_amended_witness :
    ([0] : List Nat) = binaryToString
      (((imageSlots (writeLSBAux 0 (List.replicate 44 0) (lengthBin 100))).drop 32).take
        (bitsToNat
          (readBits 0 (writeLSBAux 0 (List.replicate 44 0) (lengthBin 100)) 32).1)) :=
  (C3_deframe_amended (writeLSBAux 0 (List.replicate 44 0) (lengthBin 100)) []).2.2.1
    [0] rfl (by decide)

/-- C5 counterexample: the claim asserts corrupt flips exactly one bit of
every already-encoded artifact.  A one-character message encoded into a
48-byte audio data chunk is a successful encode (frame = 48 bits = chunk
size), but `corruptAudio` only flips a bit when the chunk is longer than 50
bytes, so here it returns the artifact unchanged — zero bits flipped. -/
theorem C5_counterexample :
    encodeAudioRun (List.replicate 48 0) [104] =
      (none, writeAudio (List.replicate 48 0) (frameBits [104])) ∧
    corruptAudio (writeAudio (List.replicate 48 0) (frameBits [104])) =
      writeAudio (List.replicate 48 0) (frameBits [104]) :=
  ⟨rfl, rfl⟩

/-- C5 amended: for every already-encoded artifact whose payload region is
large enough — image: at least 44 non-alpha channel bytes; audio: data chunk
longer than 50 bytes; PDF: base64 text longer than 10 characters — corrupt
flips exactly one bit (PDF: exactly one character at the base64 text's
midpoint) at a fixed offset past the 32-bit length header (image: the 44th
slot, i.e. body bit 11; audio: byte 40, i.e. body bit 8) and never alters
any bit of the length header (or, for PDF, the marker). -/
theorem C5_corrupt_amended (data samples raw : List Nat)
    (himg : 44 ≤ (imageSlots data).length)
    (haud : 50 < samples.length)
    (hpdf : 10 < raw.length) :
    (imageSlots (corruptImage data) =
        (imageSlots data).set 43 (!((imageSlots data).getD 43 false)) ∧
      (imageSlots (corruptImage data)).getD 43 false ≠
        (imageSlots data).getD 43 false ∧
      (imageSlots (corruptImage data)).take 32 = (imageSlots data).take 32 ∧
      (corruptImage data).length = data.length ∧
      (∀ j, (corruptImage data).getD j 0 / 2 = data.getD j 0 / 2) ∧
      (∀ j, (j + 1) % 4 = 0 → (corruptImage data).getD j 0 = data.getD j 0)) ∧
    (corruptAudio samples = samples.set 40 (xorLSB (samples.getD 40 0)) ∧
      (corruptAudio samples).getD 40 0 ≠ samples.getD 40 0 ∧
      (corruptAudio samples).getD 40 0 / 2 = samples.getD 40 0 / 2 ∧
      (∀ j, j ≠ 40 → (corruptAudio samples).getD j 0 = samples.getD j 0) ∧
      (corruptAudio samples).length = samples.length) ∧
    (corruptPdf (some (pdfMarker ++ raw)) =
        some (pdfMarker ++
          (raw.take (raw.length / 2) ++
            [if raw.getD (raw.length / 2) 0 = 65 then 66 else 65] ++
            raw.drop (raw.length / 2 + 1))) ∧
      (if raw.getD (raw.length / 2) 0 = 65 then 66 else 65) ≠
        raw.getD (raw.length / 2) 0 ∧
      (raw.take (raw.length / 2) ++
        [if raw.getD (raw.length / 2) 0 = 65 then 66 else 65] ++
        raw.drop (raw.length / 2 + 1)).length = raw.length) := by
  have hslots : imageSlots (corruptImage data) =
      (imageSlots data).set 43 (!((imageSlots data).getD 43 false)) := by
    have := corruptImageAux_slots data 0 0 (by omega)
    simpa [imageSlots, corruptImage] using this
  have haudsome : corruptAudio samples =
      samples.set 40 (xorLSB (samples.getD 40 0)) := by
    rw [corruptAudio, if_pos haud]
  refine ⟨⟨hslots, ?_, ?_, corruptImageAux_length data 0 0,
      fun j => corruptImageAux_getD_div2 data 0 0 j,
      fun j hj => corruptImageAux_getD_alpha data 0 0 j (by omega)⟩,
    ⟨haudsome, ?_, ?_, ?_, ?_⟩, ?_, ?_, ?_⟩
  · rw [hslots]
    rw [List.getD_eq_getElem?_getD, List.getElem?_set_self (by omega)]
    cases h : (imageSlots data).getD 43 false <;>
      simp [List.getD_eq_getElem?_getD] at h ⊢ <;> simp [h]
  · rw [hslots]
    exact take_set_of_le _ 43 32 _ (by omega)
  · rw [haudsome, List.getD_eq_getElem?_getD, List.getElem?_set_self (by omega)]
    simp only [Option.getD_some]
    exact xorLSB_ne _
  · rw [haudsome, List.getD_eq_getElem?_getD, List.getElem?_set_self (by omega)]
    simp only [Option.getD_some]
    exact xorLSB_div2 _
  · intro j hj
    rw [haudsome, List.getD_eq_getElem?_getD,
      List.getElem?_set_ne (fun h => hj h.symm), ← List.getD_eq_getElem?_getD]
  · rw [haudsome, List.length_set]
  · unfold corruptPdf
    simp only
    rw [if_pos (take_append_exact (n := 15) pdfMarker raw rfl),
      drop_append_exact (n := 15) pdfMarker raw rfl, if_pos hpdf]
  · by_cases hc : raw.getD (raw.length / 2) 0 = 65
    · rw [if_pos hc, hc]
      omega
    · rw [if_neg hc]
      omega
  · have h1 : (raw.take (raw.length / 2)).length = raw.length / 2 := by
      rw [List.length_take]
      omega
    have h2 : (raw.drop (raw.length / 2 + 1)).length =
        raw.length - (raw.length / 2 + 1) := by
      rw [List.length_drop]
    simp only [List.length_append, List.length_cons, List.length_nil, h1, h2]
    omega

/-- Witness for C5 amended at concrete carriers: a 59-byte image buffer
(45 slots), a 51-byte audio chunk, and an 11-character base64 text. -/
theorem C5_corrupt_amended_witness :
    corruptAudio (List.replicate 51 7) =
      (List.replicate 51 7).set 40 (xorLSB ((List.replicate 51 7).getD 40 0)) :=
  ((C5_corrupt_amended (List.replicate 59 0) (List.replicate 51 7)
      (List.replicate 11 65) (by decide) (by decide) (by decide)).2.1).1

theorem decodeImage_write_pw (data fm : List Nat)
    (hne : fm ≠ []) (hchars : ∀ c ∈ fm, c < 65536)
    (hlen : 16 * fm.length < 4294967296)
    (hcap : (frameBits fm).length * 4 ≤ data.length * 3)
    (pw : Option (List Nat → Except StegoError (List Nat))) :
    decodeImage (writeLSBAux 0 data (frameBits fm)) pw =
      (match pw with | none => .ok fm | some dec => dec fm) := by
  unfold decodeImage
  rw [decodeImageCore_write data fm hne hchars hlen hcap]

theorem decodeAudio_write_pw (samples fm : List Nat)
    (hne : fm ≠ []) (hchars : ∀ c ∈ fm, c < 65536)
    (hlen : 16 * fm.length < 4294967296)
    (hcap : (frameBits fm).length ≤ samples.length)
    (pw : Option (List Nat → Except StegoError (List Nat))) :
    decodeAudio (writeAudio samples (frameBits fm)) pw =
      (match pw with | none => .ok fm | some dec => dec fm) := by
  unfold decodeAudio
  rw [decodeAudioCore_write samples fm hne hchars hlen hcap]

/-- C1 counterexample: the empty message lies within the representable
character range and a 64-byte image carrier has ample capacity (48 slots for
the 32-bit frame), so the claim demands a round trip; encoding succeeds, but
decoding the encoded carrier fails with `noHeaderFound`, because the decoder
rejects the declared length 0 (`msgLength <= 0`). -/
theorem C1_counterexample :
    stegoEncode (Carrier.image (List.replicate 64 0)) [] none =
      Except.ok (Carrier.image (List.replicate 64 0)) ∧
    stegoDecode (Carrier.image (List.replicate 64 0)) none =
      Except.error StegoError.noHeaderFound :=
  ⟨rfl, rfl⟩

/-- C1 amended: for every carrier, every **non-empty** message all of whose
characters lie in U+0000..U+FFFF and whose 16-bit-per-character body fits the
32-bit length header, and every password including none (the cryptographic
`encryptMessage`/`decryptMessage` pair is abstracted as `enc`/`dec` with
`dec (enc m) = ok m`): whenever encode succeeds, decoding the encoded carrier
with the same password returns the original message. -/
theorem C1_roundtrip_amended (c c2 : Carrier) (msg : List Nat) (usePw : Bool)
    (enc : List Nat → List Nat) (dec : List Nat → Except StegoError (List Nat))
    (hne : (if usePw then enc msg else msg) ≠ [])
    (hchars : ∀ x ∈ (if usePw then enc msg else msg), x < 65536)
    (hlen : 16 * (if usePw then enc msg else msg).length < 4294967296)
    (hdec : dec (enc msg) = Except.ok msg)
    (hok : stegoEncode c msg (if usePw then some enc else none) = Except.ok c2) :
    stegoDecode c2 (if usePw then some dec else none) = Except.ok msg := by
  cases usePw with
  | false =>
    rw [if_neg (by decide : ¬ ((false : Bool) = true))] at hne hchars hlen hok
    rw [if_neg (by decide : ¬ ((false : Bool) = true))]
    cases c with
    | image data =>
      simp only [stegoEncode] at hok
      cases henc : encodeImage data msg none with
      | error e => rw [henc] at hok; exact absurd hok (by simp [Except.map])
      | ok out =>
        rw [henc] at hok
        simp only [Except.map] at hok
        injection hok with hok
        subst hok
        unfold encodeImage at henc
        simp only at henc
        cases hrun : encodeImageRun data msg with
        | mk oerr buf =>
          rw [hrun] at henc
          cases oerr with
          | some e => exact absurd henc (by simp)
          | none =>
            simp only at henc
            injection henc with henc
            obtain ⟨hcap, hbuf⟩ := encodeImageRun_ok hrun
            show stegoDecode (Carrier.image out) none = Except.ok msg
            have hout : out = writeLSBAux 0 data (frameBits msg) := henc ▸ hbuf
            rw [show stegoDecode (Carrier.image out) none = decodeImage out none
              from rfl, hout, decodeImage_write_pw data msg hne hchars hlen hcap none]
    | audio samples =>
      simp only [stegoEncode] at hok
      cases henc : encodeAudio samples msg none with
      | error e => rw [henc] at hok; exact absurd hok (by simp [Except.map])
      | ok out =>
        rw [henc] at hok
        simp only [Except.map] at hok
        injection hok with hok
        subst hok
        unfold encodeAudio at henc
        simp only at henc
        cases hrun : encodeAudioRun samples msg with
        | mk oerr buf =>
          rw [hrun] at henc
          cases oerr with
          | some e => exact absurd henc (by simp)
          | none =>
            simp only at henc
            injection henc with henc
            obtain ⟨hcap, hbuf⟩ := encodeAudioRun_ok hrun
            have hout : out = writeAudio samples (frameBits msg) := henc ▸ hbuf
            rw [show stegoDecode (Carrier.audio out) none = decodeAudio out none
              from rfl, hout, decodeAudio_write_pw samples msg hne hchars hlen hcap none]
    | pdf subj =>
      simp only [stegoEncode] at hok
      cases henc : encodePdf msg none with
      | error e => rw [henc] at hok; exact absurd hok (by simp [Except.map])
      | ok subj2 =>
        rw [henc] at hok
        simp only [Except.map] at hok
        injection hok with hok
        subst hok
        unfold encodePdf at henc
        simp only at henc
        cases hb : btoa msg with
        | none => rw [hb] at henc; exact absurd henc (by simp)
        | some b =>
          rw [hb] at henc
          injection henc with henc
          obtain ⟨hlat, hbb⟩ := btoa_ok hb
          subst hbb
          rw [show stegoDecode (Carrier.pdf subj2) none = decodePdf subj2 none
            from rfl, ← henc, decodePdf_marker_b64 hlat none]
  | true =>
    rw [if_pos (rfl : (true : Bool) = true)] at hne hchars hlen hok
    rw [if_pos (rfl : (true : Bool) = true)]
    cases c with
    | image data =>
      simp only [stegoEncode] at hok
      cases henc : encodeImage data msg (some enc) with
      | error e => rw [henc] at hok; exact absurd hok (by simp [Except.map])
      | ok out =>
        rw [henc] at hok
        simp only [Except.map] at hok
        injection hok with hok
        subst hok
        unfold encodeImage at henc
        simp only at henc
        cases hrun : encodeImageRun data (enc msg) with
        | mk oerr buf =>
          rw [hrun] at henc
          cases oerr with
          | some e => exact absurd henc (by simp)
          | none =>
            simp only at henc
            injection henc with henc
            obtain ⟨hcap, hbuf⟩ := encodeImageRun_ok hrun
            have hout : out = writeLSBAux 0 data (frameBits (enc msg)) := henc ▸ hbuf
            rw [show stegoDecode (Carrier.image out) (some dec) =
                decodeImage out (some dec) from rfl, hout,
              decodeImage_write_pw data (enc msg) hne hchars hlen hcap (some dec)]
            exact hdec
    | audio samples =>
      simp only [stegoEncode] at hok
      cases henc : encodeAudio samples msg (some enc) with
      | error e => rw [henc] at hok; exact absurd hok (by simp [Except.map])
      | ok out =>
        rw [henc] at hok
        simp only [Except.map] at hok
        injection hok with hok
        subst hok
        unfold encodeAudio at henc
        simp only at henc
        cases hrun : encodeAudioRun samples (enc msg) with
        | mk oerr buf =>
          rw [hrun] at henc
          cases oerr with
          | some e => exact absurd henc (by simp)
          | none =>
            simp only at henc
            injection henc with henc
            obtain ⟨hcap, hbuf⟩ := encodeAudioRun_ok hrun
            have hout : out = writeAudio samples (frameBits (enc msg)) := henc ▸ hbuf
            rw [show stegoDecode (Carrier.audio out) (some dec) =
                decodeAudio out (some dec) from rfl, hout,
              decodeAudio_write_pw samples (enc msg) hne hchars hlen hcap (some dec)]
            exact hdec
    | pdf subj =>
      simp only [stegoEncode] at hok
      cases henc : encodePdf msg (some enc) with
      | error e => rw [henc] at hok; exact absurd hok (by simp [Except.map])
      | ok subj2 =>
        rw [henc] at hok
        simp only [Except.map] at hok
        injection hok with hok
        subst hok
        unfold encodePdf at henc
        simp only at henc
        cases hb : btoa (enc msg) with
        | none => rw [hb] at henc; exact absurd henc (by simp)
        | some b =>
          rw [hb] at henc
          injection henc with henc
          obtain ⟨hlat, hbb⟩ := btoa_ok hb
          subst hbb
          rw [show stegoDecode (Carrier.pdf subj2) (some dec) =
              decodePdf subj2 (some dec) from rfl, ← henc,
            decodePdf_marker_b64 hlat (some dec)]
          exact hdec

/-- Witness for C1 amended: the one-character message "h" in a 64-byte image
carrier, no password. -/
theorem C1_roundtrip_amended_witness :
    stegoDecode
      (match stegoEncode (Carrier.image (List.replicate 64 0)) [104] none with
        | Except.ok a => a
        | Except.error _ => Carrier.image []) none = Except.ok [104] :=
  C1_roundtrip_amended (Carrier.image (List.replicate 64 0)) _ [104] false
    (fun m => m) (fun m => Except.ok m) (by decide) (by decide) (by decide)
    rfl rfl

end StegApp
